/-
Verification of the training-loop semantics of
`src/s1_development_environment/exercise_files/3_Training_Neural_Networks.ipynb`.

The notebook builds a feed-forward network, computes a loss, runs autograd
backward passes and a stochastic-gradient-descent training loop.  All
numeric/stateful semantics it relies on live in the tensor library it calls
(zero_grad, backward with additive accumulation, SGD step, LogSoftmax,
NLLLoss, CrossEntropyLoss, DataLoader batching); those call targets are not
part of the repository, so each is modelled here from the specification's
description of it, faithful to the notebook's call pattern.  Exact rational
numbers stand in for the library's floating-point scalars where the claims
are algebraic, and real numbers where they need exp/log or derivatives.
-/
import Mathlib

namespace DTUMLOps

/-! ## Parameter state: values and gradient accumulators

Modelled from the spec: "Parameter: a numeric array owned by a layer;
mutated in place by the optimizer at each step; has an associated gradient
accumulator that must be reset before each new gradient computation".
A gradient accumulator is `Option ℚ`: `none` is the "empty" state the
notebook prints as `None` before any backward pass and after a clear. -/

structure NetState (n : ℕ) where
  value : Fin n → ℚ
  grad : Fin n → Option ℚ

/-- How a gradient accumulator "reads": empty counts as zero. -/
def gradRead {n : ℕ} (s : NetState n) (i : Fin n) : ℚ :=
  (s.grad i).getD 0

/-- Modelled from the spec: `optimizer.zero_grad()` — "Clear all parameter
gradients."  Every accumulator returns to the empty state. -/
def zeroGrad {n : ℕ} (s : NetState n) : NetState n :=
  { s with grad := fun _ => none }

/-- Modelled from the spec: `loss.backward()` — "Propagate gradients backward
through every operation that produced the loss, depositing a gradient value
into each parameter that participated"; "gradient accumulation is additive
by default".  `d i` is the gradient value this pass deposits into
parameter `i`; it is added to whatever the accumulator already reads. -/
def backward {n : ℕ} (d : Fin n → ℚ) (s : NetState n) : NetState n :=
  { s with grad := fun i => some ((s.grad i).getD 0 + d i) }

/-- Modelled from the spec: `optimizer.step()` for `optim.SGD` —
"Update each parameter using its gradient and a configured learning rate
(e.g., new_value = old_value − learning_rate × gradient)."
Gradient accumulators are left untouched. -/
def sgdStep {n : ℕ} (lr : ℚ) (s : NetState n) : NetState n :=
  { s with value := fun i => s.value i - lr * gradRead s i }

/-- The learning rate of the notebook's training loop:
`optimizer = optim.SGD(model.parameters(), lr=0.003)` (cell-29). -/
def trainLr : ℚ := 3 / 1000

/-- The events a training step performs, in the order they are emitted. -/
inductive Event where
  | clearGrads : Event
  | forwardPass : Event
  | lossComputed : Event
  | backwardPass : Event
  | updateParams : Event
deriving DecidableEq, Repr

/-- One training step on one batch, as written in cell-29 of the notebook:

    optimizer.zero_grad()
    output = model(images)
    loss = criterion(output, labels)
    loss.backward()
    optimizer.step()

`fwd` is the model's forward computation on the current parameter values,
`lossOf` the loss from output scores and labels, `gradF` the gradient the
backward pass deposits for the loss of this batch at the current parameter
values.  The step returns the new state, the scalar loss (accumulated into
`running_loss` by the loop) and the trace of events in execution order. -/
def trainStep {n : ℕ} {β γ : Type} (lr : ℚ)
    (fwd : (Fin n → ℚ) → β → γ) (lossOf : γ → β → ℚ)
    (gradF : (Fin n → ℚ) → β → Fin n → ℚ)
    (batch : β) (s : NetState n) : NetState n × ℚ × List Event :=
  let s1 := zeroGrad s
  let output := fwd s1.value batch
  let loss := lossOf output batch
  let s2 := backward (gradF s1.value batch) s1
  let s3 := sgdStep lr s2
  (s3, loss, [Event.clearGrads, Event.forwardPass, Event.lossComputed,
              Event.backwardPass, Event.updateParams])

/-- The inner loop of cell-29, one training pass per batch drawn from the
loader, together with a count of the training steps performed:

    for images, labels in trainloader:
        ... training pass ... -/
def runEpoch {n : ℕ} {β γ : Type} (lr : ℚ)
    (fwd : (Fin n → ℚ) → β → γ) (lossOf : γ → β → ℚ)
    (gradF : (Fin n → ℚ) → β → Fin n → ℚ)
    (batches : List β) (s : NetState n) : NetState n × ℕ :=
  batches.foldl
    (fun p b => ((trainStep lr fwd lossOf gradF b p.1).1, p.2 + 1)) (s, 0)

/-! ## Claim theorems about the training step -/

/-- C1: a training step on one batch performs exactly the sequence
clear gradients, forward pass, loss, backward pass, parameter update —
the resulting state is the update applied after the backward pass which is
applied after the clear — and every parameter's new value is
old value − lr × (gradient of the current batch), i.e. the update consumes
exactly the gradient the current batch's backward pass deposited, never a
stale one. -/
theorem trainStep_sequence {n : ℕ} {β γ : Type} (lr : ℚ)
    (fwd : (Fin n → ℚ) → β → γ) (lossOf : γ → β → ℚ)
    (gradF : (Fin n → ℚ) → β → Fin n → ℚ) (batch : β) (s : NetState n) :
    (trainStep lr fwd lossOf gradF batch s).2.2 =
      [Event.clearGrads, Event.forwardPass, Event.lossComputed,
       Event.backwardPass, Event.updateParams]
    ∧ (trainStep lr fwd lossOf gradF batch s).1 =
        sgdStep lr (backward (gradF s.value batch) (zeroGrad s))
    ∧ (∀ i, ((trainStep lr fwd lossOf gradF batch s).1).value i =
        s.value i - lr * gradF s.value batch i) := by
  refine ⟨rfl, rfl, fun i => ?_⟩
  simp [trainStep, sgdStep, backward, zeroGrad, gradRead]

/-- C2: one SGD step replaces each parameter value by
old value − lr × gradient and changes nothing else: the gradient
accumulators are untouched.  In the training loop the learning rate is
0.003. -/
theorem sgdStep_spec {n : ℕ} (lr : ℚ) (s : NetState n) (i : Fin n) :
    (sgdStep lr s).value i = s.value i - lr * gradRead s i
    ∧ (sgdStep lr s).grad i = s.grad i
    ∧ (sgdStep trainLr s).value i = s.value i - (3 / 1000) * gradRead s i :=
  ⟨rfl, rfl, rfl⟩

/-- C4: immediately after a gradient-clear call every parameter's gradient
accumulator is empty and reads as zero, and in every training step the
backward pass begins on exactly such a cleared state: the step factors as
update ∘ backward ∘ clear, so gradients are cleared before each backward
pass. -/
theorem zeroGrad_invariant {n : ℕ} (s : NetState n) :
    (∀ i, (zeroGrad s).grad i = none ∧ gradRead (zeroGrad s) i = 0)
    ∧ (∀ {β γ : Type} (lr : ℚ) (fwd : (Fin n → ℚ) → β → γ)
        (lossOf : γ → β → ℚ) (gradF : (Fin n → ℚ) → β → Fin n → ℚ)
        (batch : β),
        (trainStep lr fwd lossOf gradF batch s).1 =
          sgdStep lr (backward (gradF s.value batch) (zeroGrad s))) :=
  ⟨fun _ => ⟨rfl, rfl⟩, fun _ _ _ _ _ => rfl⟩

/-- C5: a backward pass adds its deposit to whatever the accumulator already
reads (additive, not overwritten); hence after two consecutive backward
passes with no clear in between, starting from freshly cleared accumulators
as the notebook does, each gradient reads as the sum of what the two passes
would each deposit alone. -/
theorem backward_accumulates {n : ℕ} (s t : NetState n)
    (d1 d2 : Fin n → ℚ) (i : Fin n) :
    gradRead (backward d2 t) i = gradRead t i + d2 i
    ∧ gradRead (backward d2 (backward d1 (zeroGrad s))) i =
        gradRead (backward d1 (zeroGrad s)) i +
        gradRead (backward d2 (zeroGrad s)) i := by
  constructor
  · simp [backward, gradRead]
  · simp [backward, zeroGrad, gradRead]

/-! ## Reverse-mode autograd for the notebook's example graph

Cells 9–18 build `y = x**2`, `z = y.mean()` and call `z.backward()`.
Modelled from the spec: the backward pass composes each operation's local
derivative with the upstream gradient (chain rule).  The forward operations
and their backward transfer functions are given over any division ring so
the same graph can be run on exact rationals and on the reals. -/

/-- Forward: the elementwise square `y = x**2` (cell-10). -/
def squareEach {α : Type} [Monoid α] {n : ℕ} (x : Fin n → α) : Fin n → α :=
  fun i => x i ^ 2

/-- Forward: the mean reduction `z = y.mean()` (cell-14). -/
def meanOp {α : Type} [DivisionRing α] {n : ℕ} (y : Fin n → α) : α :=
  (∑ i, y i) / n

/-- The scalar the notebook backpropagates from: the mean of the elementwise
squares of `x`. -/
def meanSq {α : Type} [DivisionRing α] {n : ℕ} (x : Fin n → α) : α :=
  meanOp (squareEach x)

/-- Backward transfer of the mean node: its local derivative in each input
slot is `1/n`, multiplied by the upstream gradient. -/
def meanBack {α : Type} [DivisionRing α] (n : ℕ) (up : α) : Fin n → α :=
  fun _ => up / n

/-- Backward transfer of the elementwise-square node: local derivative
`2·x i` in slot `i`, multiplied by the upstream gradient arriving there. -/
def squareBack {α : Type} [DivisionRing α] {n : ℕ} (x up : Fin n → α) :
    Fin n → α :=
  fun i => 2 * x i * up i

/-- What `z.backward()` deposits into `x.grad` for `z = (x**2).mean()`:
the chain-rule composition of the two backward transfers, seeded with
upstream gradient 1 at the scalar root. -/
def meanSqGrad {α : Type} [DivisionRing α] {n : ℕ} (x : Fin n → α) :
    Fin n → α :=
  squareBack x (meanBack n 1)

/-- C3: for `z` the mean of the elementwise squares of an `n`-element tensor
`x`, the backward pass deposits `2·x/n` into `x.grad`, this deposit is the
true chain-rule derivative of `z` with respect to each entry of `x`
(witnessed by `HasDerivAt`), and for a 2×2 tensor (n = 4) it equals `x/2`
as cell-18 prints. -/
theorem backward_chain_rule :
    (∀ (n : ℕ) (x : Fin n → ℝ) (i : Fin n),
      meanSqGrad x i = 2 * x i / n
      ∧ HasDerivAt (fun t => meanSq (Function.update x i t))
          (meanSqGrad x i) (x i))
    ∧ (∀ (x : Fin 4 → ℝ) (i : Fin 4), meanSqGrad x i = x i / 2) := by
  have hval : ∀ (n : ℕ) (x : Fin n → ℝ) (i : Fin n),
      meanSqGrad x i = 2 * x i / n := by
    intro n x i
    simp [meanSqGrad, squareBack, meanBack]
    ring
  refine ⟨fun n x i => ⟨hval n x i, ?_⟩, fun x i => by rw [hval]; ring⟩
  have hfun : (fun t => meanSq (Function.update x i t)) =
      fun t : ℝ => (t ^ 2 + ∑ j in Finset.univ \ {i}, x j ^ 2) / n := by
    funext t
    unfold meanSq meanOp squareEach
    congr 1
    have : ∀ j, Function.update x i t j ^ 2 =
        Function.update (fun j => x j ^ 2) i (t ^ 2) j := fun j => by
      rcases eq_or_ne j i with rfl | hj
      · simp
      · simp [Function.update_noteq hj]
    rw [Finset.sum_congr rfl fun j _ => this j]
    exact Finset.sum_update_of_mem (Finset.mem_univ i) _ _
  rw [hfun, hval]
  have h1 : HasDerivAt (fun t : ℝ => t ^ 2) (2 * x i) (x i) := by
    simpa using hasDerivAt_pow 2 (x i)
  simpa [mul_comm] using
    ((h1.add_const (∑ j in Finset.univ \ {i}, x j ^ 2)).div_const (n : ℝ))

/-! ## A model/batch where the loss is nonzero but every gradient is zero

The training pattern applied to a one-parameter linear model on a single
(input, label) pair with squared-error loss: forward is
`loss = (w·x − y)²`; the backward pass composes the square node's local
derivative `2(w·x − y)` with the multiply node's local derivative `x`. -/

/-- Squared-error loss of the one-parameter linear model `w` on the pair
`(x, y)`. -/
def linLoss (w x y : ℚ) : ℚ := (w * x - y) ^ 2

/-- What the backward pass deposits into `w.grad` for `linLoss`: the
chain-rule composition `2(w·x − y) · x`. -/
def linGrad (w x y : ℚ) : ℚ := 2 * (w * x - y) * x

/-- C6 counterexample: at `w = 1` on the pair `(x, y) = (0, 1)` the loss is
`1 ≠ 0`, yet the backward pass deposits gradient `0` into the only
trainable parameter — a nonzero loss with every parameter gradient zero. -/
theorem nonzero_loss_zero_grad :
    linLoss 1 0 1 ≠ 0 ∧ linGrad 1 0 1 = 0 := by
  constructor <;> norm_num [linLoss, linGrad]

/-- C6 amended: for the notebook's autograd computation `z = (x**2).mean()`,
if the computed scalar is nonzero then after one backward pass at least one
entry of `x`'s gradient is nonzero. -/
theorem meanSq_nonzero_grad {n : ℕ} (x : Fin n → ℚ)
    (h : meanSq x ≠ 0) : ∃ i, meanSqGrad x i ≠ 0 := by
  by_contra hall
  push_neg at hall
  apply h
  have hn : (n : ℚ) ≠ 0 := by
    intro h0
    apply h
    unfold meanSq meanOp
    rw [h0, div_zero]
  have hx : ∀ i, x i = 0 := by
    intro i
    have := hall i
    simp [meanSqGrad, squareBack, meanBack] at this
    rcases this with h2 | hn0
    · exact h2
    · exact absurd (by exact_mod_cast hn0) hn
  unfold meanSq meanOp squareEach
  simp [hx]

/-- Witness for `meanSq_nonzero_grad` at the all-ones 2×2 tensor. -/
theorem meanSq_nonzero_grad_witness :
    meanSq (fun _ : Fin 4 => (1 : ℚ)) ≠ 0
    ∧ ∃ i, meanSqGrad (fun _ : Fin 4 => (1 : ℚ)) i ≠ 0 :=
  ⟨by simp [meanSq, meanOp, squareEach],
   meanSq_nonzero_grad _ (by simp [meanSq, meanOp, squareEach])⟩

/-! ## The training step iterated on a fixed batch of a convex toy surface

The notebook's opening cell states the mean-squared loss
ℓ = 1/(2n) · Σ (yᵢ − ŷᵢ)².  Specialised to the constant predictor ŷ = w it
is a convex toy loss surface in the single parameter `w`; the training step
is gradient descent with the loop's learning rate 0.003. -/

/-- The convex toy loss surface: the notebook's mean-squared loss of the
constant predictor `w` against the fixed batch of labels `y`. -/
def toyLoss {n : ℕ} (y : Fin n → ℚ) (w : ℚ) : ℚ :=
  (∑ i, (y i - w) ^ 2) / (2 * n)

/-- The gradient the backward pass deposits for `toyLoss` at `w`: the chain
rule through each squared term gives (1/n)·Σ (w − yᵢ). -/
def toyGrad {n : ℕ} (y : Fin n → ℚ) (w : ℚ) : ℚ :=
  (∑ i, (w - y i)) / n

/-- One training step on the fixed batch `y`: the SGD update with the
notebook's learning rate. -/
def toyStep {n : ℕ} (y : Fin n → ℚ) (w : ℚ) : ℚ :=
  w - trainLr * toyGrad y w

/-- Running the training step repeatedly on the same fixed batch: the
parameter after `k` steps from `w0`. -/
def toyIter {n : ℕ} (y : Fin n → ℚ) (w0 : ℚ) : ℕ → ℚ
  | 0 => w0
  | k + 1 => toyStep y (toyIter y w0 k)

lemma toy_sum_sq {n : ℕ} (y : Fin n → ℚ) (w : ℚ) :
    (∑ i, (y i - w) ^ 2) =
      (∑ i, y i ^ 2) - 2 * w * (∑ i, y i) + n * w ^ 2 := by
  have h : ∀ i : Fin n, (y i - w) ^ 2 = y i ^ 2 - 2 * w * y i + w ^ 2 :=
    fun i => by ring
  rw [Finset.sum_congr rfl fun i _ => h i]
  rw [Finset.sum_add_distrib, Finset.sum_sub_distrib, ← Finset.mul_sum,
    Finset.sum_const, Finset.card_univ, Fintype.card_fin, nsmul_eq_mul]

lemma toy_sum_lin {n : ℕ} (y : Fin n → ℚ) (w : ℚ) :
    (∑ i, (w - y i)) = n * w - (∑ i, y i) := by
  rw [Finset.sum_sub_distrib, Finset.sum_const, Finset.card_univ,
    Fintype.card_fin, nsmul_eq_mul]

lemma toyStep_le {n : ℕ} (hn : 0 < n) (y : Fin n → ℚ) (w : ℚ) :
    toyLoss y (toyStep y w) ≤ toyLoss y w := by
  have hN : (0 : ℚ) < n := by exact_mod_cast hn
  unfold toyLoss toyStep toyGrad trainLr
  rw [toy_sum_lin, toy_sum_sq, toy_sum_sq]
  rw [div_le_div_iff_of_pos_right (by positivity)]
  set S := ∑ i, y i with hS
  set D := ((n : ℚ) * w - S) / n with hDdef
  have hD : (n : ℚ) * D = (n : ℚ) * w - S := by
    rw [hDdef]
    field_simp
  have hkey : D * ((n : ℚ) * D) = D * ((n : ℚ) * w - S) := by rw [hD]
  nlinarith [hkey, mul_nonneg hN.le (sq_nonneg D), hN, sq_nonneg D]

/-- C7: on the convex toy loss surface, running the training step repeatedly
on the same fixed batch yields a monotonically non-increasing sequence of
loss values: loss(k+1) ≤ loss(k) at every step. -/
theorem toyLoss_monotone {n : ℕ} (y : Fin n → ℚ) (w0 : ℚ) (k : ℕ) :
    toyLoss y (toyIter y w0 (k + 1)) ≤ toyLoss y (toyIter y w0 k) := by
  rcases Nat.eq_zero_or_pos n with h | h
  · subst h
    simp [toyLoss]
  · exact toyStep_le h y _

/-! ## Batching

Modelled from the spec: the loader
`DataLoader(trainset, batch_size=64, shuffle=True)` partitions the dataset
into consecutive groups of 64 (input, label) pairs; with the loader's
default `drop_last=False` behaviour the final group holds whatever pairs
remain when the dataset size is not a multiple of 64.  The MNIST training
split loaded by `datasets.MNIST(..., train=True)` holds 60000 pairs. -/

/-- Split a dataset into batches of 64, the last batch possibly shorter. -/
def chunk64 {α : Type} : List α → List (List α)
  | [] => []
  | a :: l => (a :: l).take 64 :: chunk64 ((a :: l).drop 64)
termination_by l => l.length
decreasing_by simp; omega

/-- The sizes of the batches produced from a dataset of `n` pairs. -/
def chunkSizes : ℕ → List ℕ
  | 0 => []
  | n + 1 => min (n + 1) 64 :: chunkSizes (n + 1 - 64)
termination_by n => n
decreasing_by omega

lemma chunk64_replicate_sizes {α : Type} (a : α) :
    ∀ n, (chunk64 (List.replicate n a)).map List.length = chunkSizes n := by
  intro n
  induction n using Nat.strong_induction_on with
  | _ n ih =>
    match n with
    | 0 => simp [chunk64, chunkSizes]
    | m + 1 =>
      rw [List.replicate_succ, chunk64, chunkSizes]
      rw [← List.replicate_succ]
      rw [List.map_cons, List.take_replicate, List.drop_replicate]
      rw [List.length_replicate, ih (m + 1 - 64) (by omega)]
      rw [Nat.min_comm]

lemma chunkSizes_mem (n : ℕ) : ∀ s ∈ chunkSizes n, s = 64 ∨ s = n % 64 := by
  induction n using Nat.strong_induction_on with
  | _ n ih =>
    match n with
    | 0 => intro s hs; simp [chunkSizes] at hs
    | m + 1 =>
      intro s hs
      rw [chunkSizes] at hs
      rcases List.mem_cons.mp hs with rfl | hs
      · omega
      · have h0 : m + 1 - 64 = 0 ∨ 64 ≤ m + 1 := by omega
        rcases ih (m + 1 - 64) (by omega) s hs with h | h
        · exact Or.inl h
        · rcases h0 with h0 | h0
          · rw [h0] at hs
            simp [chunkSizes] at hs
          · right
            omega


lemma chunkSizes_mem_last :
    ∀ q r, 0 < r → r < 64 → r ∈ chunkSizes (64 * q + r) := by
  intro q
  induction q with
  | zero =>
    intro r h1 h2
    match r, h1 with
    | m + 1, _ =>
      have h0 : 64 * 0 + (m + 1) = m + 1 := by omega
      rw [h0, chunkSizes, Nat.min_eq_left (by omega)]
      exact List.mem_cons_self _ _
  | succ q ih =>
    intro r h1 h2
    obtain ⟨m, hm⟩ : ∃ m, 64 * (q + 1) + r = m + 1 := ⟨64 * q + r + 63, by omega⟩
    rw [hm, chunkSizes]
    apply List.mem_cons_of_mem
    have h3 : m + 1 - 64 = 64 * q + r := by omega
    rw [h3]
    exact ih r h1 h2

lemma runEpoch_count {n : ℕ} {β γ : Type} (lr : ℚ)
    (fwd : (Fin n → ℚ) → β → γ) (lossOf : γ → β → ℚ)
    (gradF : (Fin n → ℚ) → β → Fin n → ℚ) :
    ∀ (batches : List β) (s : NetState n) (c : ℕ),
      (batches.foldl
        (fun p b => ((trainStep lr fwd lossOf gradF b p.1).1, p.2 + 1))
        (s, c)).2 = c + batches.length := by
  intro batches
  induction batches with
  | nil => intro s c; simp
  | cons b bs ih =>
    intro s c
    rw [List.foldl_cons, ih]
    simp
    omega

/-- The MNIST training split as loaded by the notebook: 60000 (input, label)
pairs (content irrelevant to the batching claims). -/
def mnistData : List (ℚ × ℕ) := List.replicate 60000 (0, 0)

/-- The batches the loader yields from the MNIST training split. -/
def mnistBatches : List (List (ℚ × ℕ)) := chunk64 mnistData

/-- C8 counterexample: not every batch the training loop consumes has
exactly 64 pairs — the loader's final batch from the 60000-pair MNIST
training split has 32 pairs. -/
theorem batch64_counterexample : ∃ b ∈ mnistBatches, b.length ≠ 64 := by
  have h32 : (32 : ℕ) ∈ chunkSizes 60000 := by
    have := chunkSizes_mem_last 937 32 (by omega) (by omega)
    simpa using this
  have hmap : mnistBatches.map List.length = chunkSizes 60000 :=
    chunk64_replicate_sizes _ 60000
  rw [← hmap] at h32
  obtain ⟨b, hb, hlen⟩ := List.mem_map.mp h32
  exact ⟨b, hb, by omega⟩

/-- C8 amended: every batch the training loop consumes has exactly 64
(input, label) pairs except the final batch of the epoch, which has
60000 mod 64 = 32 pairs; and each batch is consumed by exactly one
training step — an epoch performs precisely one step per batch. -/
theorem batch_structure :
    (∀ b ∈ mnistBatches, b.length = 64 ∨ b.length = 32)
    ∧ (∃ b ∈ mnistBatches, b.length = 32)
    ∧ (∀ {n : ℕ} {β γ : Type} (lr : ℚ) (fwd : (Fin n → ℚ) → β → γ)
        (lossOf : γ → β → ℚ) (gradF : (Fin n → ℚ) → β → Fin n → ℚ)
        (batches : List β) (s : NetState n),
        (runEpoch lr fwd lossOf gradF batches s).2 = batches.length) := by
  have hmap : mnistBatches.map List.length = chunkSizes 60000 :=
    chunk64_replicate_sizes _ 60000
  refine ⟨?_, ?_, ?_⟩
  · intro b hb
    have hmem : b.length ∈ chunkSizes 60000 := by
      rw [← hmap]
      exact List.mem_map_of_mem _ hb
    rcases chunkSizes_mem 60000 _ hmem with h | h
    · exact Or.inl h
    · right
      omega
  · have h32 : (32 : ℕ) ∈ chunkSizes 60000 := by
      have := chunkSizes_mem_last 937 32 (by omega) (by omega)
      simpa using this
    rw [← hmap] at h32
    obtain ⟨b, hb, hlen⟩ := List.mem_map.mp h32
    exact ⟨b, hb, hlen⟩
  · intro n β γ lr fwd lossOf gradF batches s
    have := runEpoch_count lr fwd lossOf gradF batches s 0
    simpa [runEpoch] using this

/-! ## Losses over the reals

Modelled from the spec and the library documentation the notebook quotes:
"This criterion combines `nn.LogSoftmax()` and `nn.NLLLoss()` in one single
class. The input is expected to contain scores for each class."
`crossEntropyLoss` is written directly from the standard cross-entropy
formula on raw scores — the negative log of the softmax probability of the
true class, averaged over the batch — independently of the other two, so
that their agreement is a theorem and not a definition. -/

/-- `nn.LogSoftmax(dim=1)`: row `i` of the output is the scores row shifted
by the log of the sum of exponentials of that row. -/
noncomputable def logSoftmax {n c : ℕ} (l : Fin n → Fin c → ℝ) :
    Fin n → Fin c → ℝ :=
  fun i j => l i j - Real.log (∑ k, Real.exp (l i k))

/-- `nn.NLLLoss()` with mean reduction: the negative log-probability the
input assigns to each true label, averaged over the batch. -/
noncomputable def nllLoss {n c : ℕ} (lp : Fin n → Fin c → ℝ)
    (y : Fin n → Fin c) : ℝ :=
  (∑ i, -lp i (y i)) / n

/-- `nn.CrossEntropyLoss()` with mean reduction, on raw scores:
−log(exp(score of true class) / Σ exp(scores)) per example, averaged. -/
noncomputable def crossEntropyLoss {n c : ℕ} (l : Fin n → Fin c → ℝ)
    (y : Fin n → Fin c) : ℝ :=
  (∑ i, (Real.log (∑ k, Real.exp (l i k)) - l i (y i))) / n

/-! ## The notebook's feed-forward network (cells 5, 7, 21, 29)

`nn.Sequential(nn.Linear(784, 128), nn.ReLU(), nn.Linear(128, 64),
nn.ReLU(), nn.Linear(64, 10))`, optionally followed by
`nn.LogSoftmax(dim=1)`.  Modelled from the spec: a linear layer computes
W·x + b and ReLU clamps negatives to zero. -/

structure MLPParams where
  w1 : Fin 128 → Fin 784 → ℝ
  b1 : Fin 128 → ℝ
  w2 : Fin 64 → Fin 128 → ℝ
  b2 : Fin 64 → ℝ
  w3 : Fin 10 → Fin 64 → ℝ
  b3 : Fin 10 → ℝ

/-- `nn.Linear(a, b)`: an affine map on one example. -/
noncomputable def linearLayer {a b : ℕ} (W : Fin b → Fin a → ℝ)
    (bias : Fin b → ℝ) (x : Fin a → ℝ) : Fin b → ℝ :=
  fun j => (∑ k, W j k * x k) + bias j

/-- `nn.ReLU()` applied elementwise. -/
def relu {a : ℕ} (x : Fin a → ℝ) : Fin a → ℝ :=
  fun i => max (x i) 0

/-- The raw scores of the cell-5 network on a batch of flattened images:
the three linear layers with ReLU activations, no LogSoftmax. -/
noncomputable def mlpLogits {bs : ℕ} (p : MLPParams)
    (x : Fin bs → Fin 784 → ℝ) : Fin bs → Fin 10 → ℝ :=
  fun i =>
    linearLayer p.w3 p.b3
      (relu (linearLayer p.w2 p.b2 (relu (linearLayer p.w1 p.b1 (x i)))))

/-- The cell-7/cell-29 network: the same layers followed by
`nn.LogSoftmax(dim=1)`. -/
noncomputable def mlpModel {bs : ℕ} (p : MLPParams)
    (x : Fin bs → Fin 784 → ℝ) : Fin bs → Fin 10 → ℝ :=
  logSoftmax (mlpLogits p x)

/-- C9: cross-entropy on raw scores coincides with negative log-likelihood
on the row-wise log-softmax of those scores, for every scores matrix and
label vector of matching shapes; hence the notebook's two formulations —
the cell-5 network with `nn.CrossEntropyLoss` and the cell-7 network with
`nn.LogSoftmax(dim=1)` plus `nn.NLLLoss` — compute the same loss on the
same inputs and weights. -/
theorem crossEntropy_eq_nll_logSoftmax :
    (∀ {n c : ℕ} (l : Fin n → Fin c → ℝ) (y : Fin n → Fin c),
      crossEntropyLoss l y = nllLoss (logSoftmax l) y)
    ∧ (∀ {bs : ℕ} (p : MLPParams) (x : Fin bs → Fin 784 → ℝ)
        (y : Fin bs → Fin 10),
        crossEntropyLoss (mlpLogits p x) y = nllLoss (mlpModel p x) y) := by
  have h : ∀ {n c : ℕ} (l : Fin n → Fin c → ℝ) (y : Fin n → Fin c),
      crossEntropyLoss l y = nllLoss (logSoftmax l) y := by
    intro n c l y
    unfold crossEntropyLoss nllLoss logSoftmax
    congr 1
    refine Finset.sum_congr rfl fun i _ => ?_
    ring
  exact ⟨h, fun p x y => h (mlpLogits p x) y⟩

lemma sum_exp_pos {c : ℕ} (hc : 0 < c) (v : Fin c → ℝ) :
    0 < ∑ k, Real.exp (v k) :=
  Finset.sum_pos (fun _ _ => Real.exp_pos _)
    (Finset.univ_nonempty_iff.mpr (Fin.pos_iff_nonempty.mp hc))

/-- C10: every row of the model output produced by the final
`LogSoftmax(dim=1)` layer consists of non-positive values whose
exponentials are non-negative and sum to 1 — so `torch.exp` of each output
row is a probability distribution over the 10 classes. -/
theorem model_output_log_probabilities {bs : ℕ} (p : MLPParams)
    (x : Fin bs → Fin 784 → ℝ) (i : Fin bs) :
    (∀ j, mlpModel p x i j ≤ 0)
    ∧ (∀ j, 0 ≤ Real.exp (mlpModel p x i j))
    ∧ (∑ j, Real.exp (mlpModel p x i j)) = 1 := by
  have hpos : 0 < ∑ k, Real.exp (mlpLogits p x i k) :=
    sum_exp_pos (by omega) _
  refine ⟨fun j => ?_, fun j => (Real.exp_pos _).le, ?_⟩
  · unfold mlpModel logSoftmax
    rw [sub_nonpos, ← Real.exp_le_exp, Real.exp_log hpos]
    exact Finset.single_le_sum (fun k _ => (Real.exp_pos _).le)
      (Finset.mem_univ j)
  · unfold mlpModel logSoftmax
    have : ∀ j : Fin 10,
        Real.exp (mlpLogits p x i j -
          Real.log (∑ k, Real.exp (mlpLogits p x i k))) =
        Real.exp (mlpLogits p x i j) /
          (∑ k, Real.exp (mlpLogits p x i k)) := fun j => by
      rw [Real.exp_sub, Real.exp_log hpos]
    rw [Finset.sum_congr rfl fun j _ => this j, ← Finset.sum_div]
    exact div_self hpos.ne.symm

end DTUMLOps
